import Mathlib

/-!
Verification of `compress_and_upload_ego4d.py`.

The development shallow-embeds the script's core logic:

* the progress ledger (`save_progress`, lines 52-59, and `load_progress`,
  lines 61-71) over a small JSON model;
* the file-system operations `save_progress` performs (open-with-truncate
  followed by a complete write, lines 54-58);
* the batching / upload / clean loop of `compress_upload_and_clean`
  (lines 110-273) as a state machine producing an event trace, with the
  outcomes of the external `check_disk_space` and `upload_to_modelscope`
  calls supplied by oracles indexed by call count;
* the `__main__` block's termination behaviour (lines 287-307).
-/

/-! ## JSON model for the ledger file -/

/-- JSON values as written/read by `json.dump` / `json.load`.  Numbers are
modelled as integers: the script only ever writes the integer
`current_archive`. -/
inductive Json where
  | null
  | bool (b : Bool)
  | num (n : Int)
  | str (s : String)
  | arr (elems : List Json)
  | obj (fields : List (String × Json))

/-- Hashable scalar JSON values: exactly the values Python may place in a
`set`.  Lists and dicts are unhashable and make `set(...)` raise. -/
inductive JAtom where
  | null
  | bool (b : Bool)
  | num (n : Int)
  | str (s : String)
deriving DecidableEq

/-- The value of a JSON scalar, `none` on an unhashable list/dict. -/
def jsonAtom : Json → Option JAtom
  | Json.null => some JAtom.null
  | Json.bool b => some (JAtom.bool b)
  | Json.num n => some (JAtom.num n)
  | Json.str s => some (JAtom.str s)
  | Json.arr _ => none
  | Json.obj _ => none

/-- All elements of a list as hashable atoms; `none` if any element is
unhashable (Python: `set(xs)` raises `TypeError`). -/
def atomsOf : List Json → Option (List JAtom)
  | [] => some []
  | j :: rest =>
    match jsonAtom j, atomsOf rest with
    | some a, some t => some (a :: t)
    | _, _ => none

/-- Python dict lookup on parsed JSON fields (for duplicate keys,
`json.load` keeps the last occurrence). -/
def dictGet (kvs : List (String × Json)) (k : String) : Option Json :=
  (kvs.reverse.find? (fun kv => kv.1 == k)).map (fun kv => kv.2)

/-- Python `set(x)`: iterate `x` and collect hashable elements.  Strings
iterate over their characters, dicts over their keys; lists succeed only
when every element is hashable; every other value is not iterable
(`TypeError`, which `load_progress` catches). -/
def pySet : Json → Option (Finset JAtom)
  | Json.arr xs => (atomsOf xs).map List.toFinset
  | Json.str s => some ((s.toList.map (fun c => JAtom.str c.toString)).toFinset)
  | Json.obj kvs => some ((kvs.map (fun kv => JAtom.str kv.1)).toFinset)
  | _ => none

/-- State of the progress file as `load_progress` (lines 61-71) may find
it: absent (`os.path.exists` false), unreadable (`open` raises), invalid
JSON (`json.load` raises), or parsed into a JSON value. -/
inductive ProgressFile where
  | missing
  | unreadable
  | invalidJson
  | parsed (j : Json)

/-- Body of the `try` block of `load_progress` (lines 65-68): index the
parsed value with `'current_archive'` and `'processed_files'` and build
`set(data['processed_files'])`; `none` models any raised exception
(`KeyError`, `TypeError`), which the `except` clause catches. -/
def tryLoad (j : Json) : Option (Json × Finset JAtom) :=
  match j with
  | Json.obj kvs => do
    let seq ← dictGet kvs "current_archive"
    let pl ← dictGet kvs "processed_files"
    let ps ← pySet pl
    pure (seq, ps)
  | _ => none

/-- `load_progress` (lines 61-71): missing file, unreadable file, invalid
JSON, or any exception inside the `try` block all yield `(1, set())`.
The function is total: no case propagates an exception. -/
def load_progress : ProgressFile → Json × Finset JAtom
  | ProgressFile.missing => (Json.num 1, ∅)
  | ProgressFile.unreadable => (Json.num 1, ∅)
  | ProgressFile.invalidJson => (Json.num 1, ∅)
  | ProgressFile.parsed j => (tryLoad j).getD (Json.num 1, ∅)

/-- The JSON record `save_progress` (lines 52-58) serializes:
`{'current_archive': current_archive, 'processed_files': processed_files}`. -/
def save_progress_json (current_archive : Int) (processed_files : List String) : Json :=
  Json.obj [("current_archive", Json.num current_archive),
            ("processed_files", Json.arr (processed_files.map Json.str))]

/-- Line 105 of `compress_upload_and_clean`:
`load_progress(progress_file) if resume else (1, set())`. -/
def loadedState (pf : ProgressFile) (resume : Bool) : Json × Finset JAtom :=
  if resume then load_progress pf else (Json.num 1, ∅)

/-! ## File-system behaviour of `save_progress` -/

/-- File-system operations relevant to writing the ledger.  `openTrunc`
is `open(path, 'w')`, which truncates an existing file in place;
`writeJson` is a completed `json.dump(..., f)`; `rename` (`os.rename`)
is the operation an atomic write-then-rename scheme would use. -/
inductive FsOp where
  | openTrunc (path : String)
  | writeJson (path : String) (content : Json)
  | rename (src : String) (dst : String)

/-- Content of one file: a fully serialized JSON record, or truncated
with no complete record (the state between `open(path, 'w')` and a
finished `json.dump`). -/
inductive FileContent where
  | json (j : Json)
  | empty

def isRename : FsOp → Bool
  | FsOp.rename _ _ => true
  | _ => false

/-- Effect of one file-system operation on the mapping from paths to file
contents (`none` = no such file). -/
def applyOp (fs : String → Option FileContent) (op : FsOp) : String → Option FileContent :=
  match op with
  | FsOp.openTrunc p => fun q => if q = p then some FileContent.empty else fs q
  | FsOp.writeJson p j => fun q => if q = p then some (FileContent.json j) else fs q
  | FsOp.rename src dst =>
    fun q => if q = dst then fs src else if q = src then none else fs q

def applyOps (ops : List FsOp) (fs : String → Option FileContent) : String → Option FileContent :=
  ops.foldl applyOp fs

/-- The exact file-system operations `save_progress` performs (lines
54-58): open the ledger file itself with truncation, then write the
record into it.  No temporary file and no rename are involved. -/
def save_progress_ops (progress_file : String) (current_archive : Int)
    (processed_files : List String) : List FsOp :=
  [FsOp.openTrunc progress_file,
   FsOp.writeJson progress_file (save_progress_json current_archive processed_files)]

/-! ## The batching / upload / clean loop -/

/-- Kind of archive created by the loop: `ego4d_part_NNN.tar.gz` (normal
batch, line 134) or `ego4d_bigfile_NNN.tar.gz` (oversized singleton,
line 189). -/
inductive ArchKind where
  | part
  | bigfile
deriving DecidableEq

/-- Identity of one archive: its kind and the `current_archive` sequence
number baked into its name. -/
structure ArchiveId where
  kind : ArchKind
  seq : Nat
deriving DecidableEq

/-- Observable actions of one run of `compress_upload_and_clean`. -/
inductive Event where
  | diskCheck (ok : Bool)
  | compress (arch : ArchiveId) (files : List (String × Nat))
  | upload (arch : ArchiveId) (ok : Bool)
  | removeArchive (arch : ArchiveId)
  | save (seq : Nat) (processed : Finset String)
  | removeProgress
deriving DecidableEq

/-- Run configuration: `max_size_bytes` plus oracles giving the outcome
of the n-th `check_disk_space` call (line 123) and the n-th
`upload_to_modelscope` call (lines 156, 203, 248). -/
structure Cfg where
  maxSize : Nat
  diskOk : Nat → Bool
  uploadOk : Nat → Bool

/-- Mutable state of the loop in `compress_upload_and_clean`:
`current_archive`, `processed_files`, `current_files` (paths with the
sizes they were appended with), `current_size`, the number of disk-space
checks and upload attempts made so far, the event trace, and whether the
progress file currently exists on disk. -/
structure St where
  seq : Nat
  processed : Finset String
  curFiles : List (String × Nat)
  curSize : Nat
  nDisk : Nat
  nUp : Nat
  events : List Event
  progressExists : Bool

def emit (st : St) (e : Event) : St :=
  { st with events := st.events ++ [e] }

/-- One `check_disk_space` call: record its outcome. -/
def noteDisk (st : St) (ok : Bool) : St :=
  { st with nDisk := st.nDisk + 1, events := st.events ++ [Event.diskCheck ok] }

/-- One `save_progress(progress_file, sq, list(processed_files))` call:
record the arguments and mark the progress file as existing. -/
def saveLedger (st : St) (sq : Nat) : St :=
  { st with events := st.events ++ [Event.save sq st.processed], progressExists := true }

/-- Lines 132-180: flush the accumulator as a normal archive
`ego4d_part_NNN`, upload it; on success delete the archive, mark the
files processed, save the ledger with `current_archive + 1` and reset
the accumulator; on failure save the ledger unchanged and return `False`
(modelled as `Except.error`). -/
def flushPart (cfg : Cfg) (st : St) : Except St St :=
  let a : ArchiveId := ⟨ArchKind.part, st.seq⟩
  let st1 := emit st (Event.compress a st.curFiles)
  let ok := cfg.uploadOk st1.nUp
  let st2 := emit { st1 with nUp := st1.nUp + 1 } (Event.upload a ok)
  if ok then
    let st3 := emit st2 (Event.removeArchive a)
    let st4 := { st3 with processed := st3.processed ∪ (st3.curFiles.map Prod.fst).toFinset }
    let st5 := saveLedger st4 (st4.seq + 1)
    Except.ok { st5 with seq := st5.seq + 1, curSize := 0, curFiles := [] }
  else
    Except.error (saveLedger st2 st2.seq)

/-- Lines 183-222: compress the single oversized file as
`ego4d_bigfile_NNN`, upload it; on success delete the archive, add the
file to `processed_files`, save the ledger with `current_archive + 1`
and advance the sequence; on failure save the ledger unchanged and
return `False`. -/
def processBig (cfg : Cfg) (fp : String) (fs : Nat) (st : St) : Except St St :=
  let a : ArchiveId := ⟨ArchKind.bigfile, st.seq⟩
  let st1 := emit st (Event.compress a [(fp, fs)])
  let ok := cfg.uploadOk st1.nUp
  let st2 := emit { st1 with nUp := st1.nUp + 1 } (Event.upload a ok)
  if ok then
    let st3 := emit st2 (Event.removeArchive a)
    let st4 := { st3 with processed := insert fp st3.processed }
    let st5 := saveLedger st4 (st4.seq + 1)
    Except.ok { st5 with seq := st5.seq + 1 }
  else
    Except.error (saveLedger st2 st2.seq)

def appendFile (st : St) (fp : String) (fs : Nat) : St :=
  { st with curFiles := st.curFiles ++ [(fp, fs)], curSize := st.curSize + fs }

/-- Loop body for one `(file_path, file_size)` pair (lines 117-225):
skip already-processed files; check disk space (saving the ledger and
returning `False` on shortage, lines 123-128); on
`(current_size + file_size > max_size_bytes and current_files) or
file_size > max_size_bytes` flush the accumulator and, for an oversized
file, process it alone and `continue`; otherwise append the file to the
accumulator (lines 224-225). -/
def step (cfg : Cfg) (fp : String) (fs : Nat) (st : St) : Except St St :=
  if fp ∈ st.processed then
    Except.ok st
  else
    let dok := cfg.diskOk st.nDisk
    let st1 := noteDisk st dok
    if dok then
      if (cfg.maxSize < st1.curSize + fs ∧ st1.curFiles ≠ []) ∨ cfg.maxSize < fs then
        match (if st1.curFiles ≠ [] then flushPart cfg st1 else Except.ok st1) with
        | Except.error st2 => Except.error st2
        | Except.ok st2 =>
          if cfg.maxSize < fs then processBig cfg fp fs st2
          else Except.ok (appendFile st2 fp fs)
      else
        Except.ok (appendFile st1 fp fs)
    else
      Except.error (saveLedger st1 st1.seq)

/-- The `for file_path, file_size in all_files` loop, with `return False`
propagated as `Except.error`. -/
def procAll (cfg : Cfg) : List (String × Nat) → St → Except St St
  | [], st => Except.ok st
  | (fp, fs) :: rest, st =>
    match step cfg fp fs st with
    | Except.error st1 => Except.error st1
    | Except.ok st1 => procAll cfg rest st1

/-- Lines 228-264: compress and upload the final batch.  On success the
archive is deleted and the files are marked processed but, unlike the
in-loop flush, no `save_progress` call is made; on failure the ledger is
saved unchanged and the run returns `False`. -/
def flushFinal (cfg : Cfg) (st : St) : Except St St :=
  let a : ArchiveId := ⟨ArchKind.part, st.seq⟩
  let st1 := emit st (Event.compress a st.curFiles)
  let ok := cfg.uploadOk st1.nUp
  let st2 := emit { st1 with nUp := st1.nUp + 1 } (Event.upload a ok)
  if ok then
    let st3 := emit st2 (Event.removeArchive a)
    Except.ok { st3 with processed := st3.processed ∪ (st3.curFiles.map Prod.fst).toFinset }
  else
    Except.error (saveLedger st2 st2.seq)

/-- Lines 228-273: handle the final batch if the accumulator is
non-empty, then remove the progress file if it exists and return `True`. -/
def finishRun (cfg : Cfg) (st : St) : Bool × St :=
  match (if st.curFiles ≠ [] then flushFinal cfg st else Except.ok st) with
  | Except.error st1 => (false, st1)
  | Except.ok st1 =>
    if st1.progressExists then
      (true, emit { st1 with progressExists := false } Event.removeProgress)
    else
      (true, st1)

/-- Loop state at line 110: `current_size = 0`, `current_files = []`,
with `current_archive` and `processed_files` as loaded. -/
def initSt (seq0 : Nat) (processed0 : Finset String) (hasLedgerFile : Bool) : St :=
  { seq := seq0, processed := processed0, curFiles := [], curSize := 0,
    nDisk := 0, nUp := 0, events := [], progressExists := hasLedgerFile }

/-- The batching/upload/clean portion of `compress_upload_and_clean`
(lines 110-273), started from a loaded `(current_archive,
processed_files)` pair.  Returns the Python function's boolean result
together with the final state and its event trace. -/
def runBatches (cfg : Cfg) (inventory : List (String × Nat)) (seq0 : Nat)
    (processed0 : Finset String) (hasLedgerFile : Bool) : Bool × St :=
  match procAll cfg inventory (initSt seq0 processed0 hasLedgerFile) with
  | Except.error st1 => (false, st1)
  | Except.ok st1 => finishRun cfg st1

/-! ## The `__main__` block -/

/-- Outcome of the `try` block of the `__main__` section:
`compress_upload_and_clean` returned `True`, returned `False`, or a
`KeyboardInterrupt` was raised. -/
inductive RunOutcome where
  | completed
  | haltedFalse
  | interrupted

/-- Process exit code of the script (lines 287-307): every branch only
logs — `sys.exit` is never called — and the interpreter falls off the
end of the script, so the exit code is `0` in all three cases. -/
def script_exit_code : RunOutcome → Nat
  | RunOutcome.completed => 0
  | RunOutcome.haltedFalse => 0
  | RunOutcome.interrupted => 0

/-! ## Derived notions used by the specification -/

def sizeSum (l : List (String × Nat)) : Nat := (l.map Prod.snd).sum

/-- Files grouped into archives, in order, across a trace. -/
def batchFiles (evs : List Event) : List (String × Nat) :=
  (evs.map (fun e => match e with
    | Event.compress _ fl => fl
    | _ => [])).flatten

def isSaveEvent : Event → Bool
  | Event.save _ _ => true
  | _ => false

/-- Specification of one archive-creating event: a normal batch never
exceeds the ceiling, an oversized-singleton batch is a single file
strictly above the ceiling. -/
def goodCompress (M : Nat) : Event → Prop
  | Event.compress a fl =>
    match a.kind with
    | ArchKind.part => sizeSum fl ≤ M
    | ArchKind.bigfile => ∃ p n, fl = [(p, n)] ∧ M < n
  | _ => True

/-- Configuration in which every disk-space check and every upload
succeeds. -/
def cfgAllOk (M : Nat) : Cfg := ⟨M, fun _ => true, fun _ => true⟩

/-- Configuration in which every upload fails (disk checks succeed). -/
def cfgNoUpload (M : Nat) : Cfg := ⟨M, fun _ => true, fun _ => false⟩

/-- What `Except.error` results of an upload attempt must look like
relative to the state `stPre` in which the batch's processing started:
the run returns `False`, the archive is not removed, and the ledger is
rewritten with exactly the pre-batch sequence number and processed set. -/
def uploadFailureSpec (stPre : St) (r : Except St St) : Prop :=
  ∃ stF, r = Except.error stF
    ∧ stF.seq = stPre.seq
    ∧ stF.processed = stPre.processed
    ∧ ∃ new, stF.events = stPre.events ++ new
        ∧ (∀ a, Event.removeArchive a ∉ new)
        ∧ new.getLast? = some (Event.save stPre.seq stPre.processed)

/-! ## Exact traces of the pipeline steps -/

theorem flushPart_ok (cfg : Cfg) (st : St) (h : cfg.uploadOk st.nUp = true) :
    flushPart cfg st = Except.ok
      { seq := st.seq + 1,
        processed := st.processed ∪ (st.curFiles.map Prod.fst).toFinset,
        curFiles := [], curSize := 0,
        nDisk := st.nDisk, nUp := st.nUp + 1,
        events := st.events ++
          [Event.compress ⟨ArchKind.part, st.seq⟩ st.curFiles,
           Event.upload ⟨ArchKind.part, st.seq⟩ true,
           Event.removeArchive ⟨ArchKind.part, st.seq⟩,
           Event.save (st.seq + 1) (st.processed ∪ (st.curFiles.map Prod.fst).toFinset)],
        progressExists := true } := by
  simp [flushPart, emit, saveLedger, h]

theorem flushPart_fail (cfg : Cfg) (st : St) (h : cfg.uploadOk st.nUp = false) :
    flushPart cfg st = Except.error
      { st with nUp := st.nUp + 1,
                events := st.events ++
                  [Event.compress ⟨ArchKind.part, st.seq⟩ st.curFiles,
                   Event.upload ⟨ArchKind.part, st.seq⟩ false,
                   Event.save st.seq st.processed],
                progressExists := true } := by
  simp [flushPart, emit, saveLedger, h]

theorem processBig_ok (cfg : Cfg) (fp : String) (fs : Nat) (st : St)
    (h : cfg.uploadOk st.nUp = true) :
    processBig cfg fp fs st = Except.ok
      { st with seq := st.seq + 1,
                processed := insert fp st.processed,
                nUp := st.nUp + 1,
                events := st.events ++
                  [Event.compress ⟨ArchKind.bigfile, st.seq⟩ [(fp, fs)],
                   Event.upload ⟨ArchKind.bigfile, st.seq⟩ true,
                   Event.removeArchive ⟨ArchKind.bigfile, st.seq⟩,
                   Event.save (st.seq + 1) (insert fp st.processed)],
                progressExists := true } := by
  simp [processBig, emit, saveLedger, h]

theorem processBig_fail (cfg : Cfg) (fp : String) (fs : Nat) (st : St)
    (h : cfg.uploadOk st.nUp = false) :
    processBig cfg fp fs st = Except.error
      { st with nUp := st.nUp + 1,
                events := st.events ++
                  [Event.compress ⟨ArchKind.bigfile, st.seq⟩ [(fp, fs)],
                   Event.upload ⟨ArchKind.bigfile, st.seq⟩ false,
                   Event.save st.seq st.processed],
                progressExists := true } := by
  simp [processBig, emit, saveLedger, h]

theorem flushFinal_ok (cfg : Cfg) (st : St) (h : cfg.uploadOk st.nUp = true) :
    flushFinal cfg st = Except.ok
      { st with processed := st.processed ∪ (st.curFiles.map Prod.fst).toFinset,
                nUp := st.nUp + 1,
                events := st.events ++
                  [Event.compress ⟨ArchKind.part, st.seq⟩ st.curFiles,
                   Event.upload ⟨ArchKind.part, st.seq⟩ true,
                   Event.removeArchive ⟨ArchKind.part, st.seq⟩] } := by
  simp [flushFinal, emit, h]

theorem flushFinal_fail (cfg : Cfg) (st : St) (h : cfg.uploadOk st.nUp = false) :
    flushFinal cfg st = Except.error
      { st with nUp := st.nUp + 1,
                events := st.events ++
                  [Event.compress ⟨ArchKind.part, st.seq⟩ st.curFiles,
                   Event.upload ⟨ArchKind.part, st.seq⟩ false,
                   Event.save st.seq st.processed],
                progressExists := true } := by
  simp [flushFinal, emit, saveLedger, h]

theorem step_skip (cfg : Cfg) (fp : String) (fs : Nat) (st : St) (h : fp ∈ st.processed) :
    step cfg fp fs st = Except.ok st := by
  simp [step, h]

theorem step_diskFail (cfg : Cfg) (fp : String) (fs : Nat) (st : St)
    (h1 : fp ∉ st.processed) (h2 : cfg.diskOk st.nDisk = false) :
    step cfg fp fs st = Except.error
      { st with nDisk := st.nDisk + 1,
                events := st.events ++ [Event.diskCheck false, Event.save st.seq st.processed],
                progressExists := true } := by
  simp [step, h1, h2, noteDisk, saveLedger]

theorem step_append (cfg : Cfg) (fp : String) (fs : Nat) (st : St)
    (h1 : fp ∉ st.processed) (h2 : cfg.diskOk st.nDisk = true)
    (h3 : ¬ ((cfg.maxSize < st.curSize + fs ∧ st.curFiles ≠ []) ∨ cfg.maxSize < fs)) :
    step cfg fp fs st = Except.ok
      { st with nDisk := st.nDisk + 1,
                events := st.events ++ [Event.diskCheck true],
                curFiles := st.curFiles ++ [(fp, fs)],
                curSize := st.curSize + fs } := by
  rw [step, if_neg h1]
  simp only [h2, noteDisk, if_true]
  rw [if_neg h3]
  simp [appendFile]

theorem step_flush (cfg : Cfg) (fp : String) (fs : Nat) (st : St)
    (h1 : fp ∉ st.processed) (h2 : cfg.diskOk st.nDisk = true)
    (hne : st.curFiles ≠ [])
    (hcond : (cfg.maxSize < st.curSize + fs ∧ st.curFiles ≠ []) ∨ cfg.maxSize < fs) :
    step cfg fp fs st =
      match flushPart cfg (noteDisk st true) with
      | Except.error st2 => Except.error st2
      | Except.ok st2 =>
        if cfg.maxSize < fs then processBig cfg fp fs st2
        else Except.ok (appendFile st2 fp fs) := by
  rw [step, if_neg h1]
  simp only [h2, noteDisk, if_true]
  rw [if_pos hcond, if_pos hne]

theorem step_bigEmpty (cfg : Cfg) (fp : String) (fs : Nat) (st : St)
    (h1 : fp ∉ st.processed) (h2 : cfg.diskOk st.nDisk = true)
    (he : st.curFiles = []) (hfs : cfg.maxSize < fs) :
    step cfg fp fs st = processBig cfg fp fs (noteDisk st true) := by
  rw [step, if_neg h1]
  simp only [h2, noteDisk, if_true]
  rw [if_pos (Or.inr hfs)]
  simp [he, hfs]

/-! ## Size invariant of the batching loop -/

/-- Loop invariant: `current_size` is the total size of the accumulator,
it never exceeds the ceiling, an empty accumulator has size zero, and
every archive created so far respects `goodCompress`. -/
def InvC1 (M : Nat) (st : St) : Prop :=
  st.curSize = sizeSum st.curFiles ∧ st.curSize ≤ M ∧ (st.curFiles = [] → st.curSize = 0)
  ∧ ∀ e ∈ st.events, goodCompress M e

def invRes (M : Nat) : Except St St → Prop
  | Except.ok st => InvC1 M st
  | Except.error st => InvC1 M st

theorem sizeSum_append_single (l : List (String × Nat)) (fp : String) (fs : Nat) :
    sizeSum (l ++ [(fp, fs)]) = sizeSum l + fs := by
  simp [sizeSum]

theorem good_append (M : Nat) (evs new : List Event) (h : ∀ e ∈ evs, goodCompress M e)
    (h2 : ∀ e ∈ new, goodCompress M e) : ∀ e ∈ evs ++ new, goodCompress M e := by
  intro e he
  rcases List.mem_append.1 he with h' | h'
  · exact h e h'
  · exact h2 e h'

theorem noteDisk_inv (M : Nat) (st : St) (ok : Bool) (h : InvC1 M st) :
    InvC1 M (noteDisk st ok) := by
  obtain ⟨h1, h2, h3, h4⟩ := h
  refine ⟨h1, h2, h3, good_append M _ _ h4 ?_⟩
  intro e he
  simp only [List.mem_singleton] at he
  subst he
  trivial

theorem flushPart_inv (cfg : Cfg) (st : St) (h : InvC1 cfg.maxSize st) :
    invRes cfg.maxSize (flushPart cfg st) := by
  obtain ⟨h1, h2, h3, h4⟩ := h
  have hgood : goodCompress cfg.maxSize (Event.compress ⟨ArchKind.part, st.seq⟩ st.curFiles) := by
    simp only [goodCompress]
    omega
  cases hup : cfg.uploadOk st.nUp with
  | false =>
    rw [flushPart_fail cfg st hup]
    refine ⟨h1, h2, h3, good_append _ _ _ h4 ?_⟩
    intro e he
    simp only [List.mem_cons, List.not_mem_nil, or_false] at he
    rcases he with rfl | rfl | rfl
    · exact hgood
    · trivial
    · trivial
  | true =>
    rw [flushPart_ok cfg st hup]
    refine ⟨by simp [sizeSum], Nat.zero_le _, fun _ => rfl, good_append _ _ _ h4 ?_⟩
    intro e he
    simp only [List.mem_cons, List.not_mem_nil, or_false] at he
    rcases he with rfl | rfl | rfl | rfl
    · exact hgood
    · trivial
    · trivial
    · trivial

theorem processBig_inv (cfg : Cfg) (fp : String) (fs : Nat) (st : St)
    (hfs : cfg.maxSize < fs) (h : InvC1 cfg.maxSize st) :
    invRes cfg.maxSize (processBig cfg fp fs st) := by
  obtain ⟨h1, h2, h3, h4⟩ := h
  have hgood : goodCompress cfg.maxSize (Event.compress ⟨ArchKind.bigfile, st.seq⟩ [(fp, fs)]) := by
    exact ⟨fp, fs, rfl, hfs⟩
  cases hup : cfg.uploadOk st.nUp with
  | false =>
    rw [processBig_fail cfg fp fs st hup]
    refine ⟨h1, h2, h3, good_append _ _ _ h4 ?_⟩
    intro e he
    simp only [List.mem_cons, List.not_mem_nil, or_false] at he
    rcases he with rfl | rfl | rfl
    · exact hgood
    · trivial
    · trivial
  | true =>
    rw [processBig_ok cfg fp fs st hup]
    refine ⟨h1, h2, h3, good_append _ _ _ h4 ?_⟩
    intro e he
    simp only [List.mem_cons, List.not_mem_nil, or_false] at he
    rcases he with rfl | rfl | rfl | rfl
    · exact hgood
    · trivial
    · trivial
    · trivial

theorem step_inv (cfg : Cfg) (fp : String) (fs : Nat) (st : St) (h : InvC1 cfg.maxSize st) :
    invRes cfg.maxSize (step cfg fp fs st) := by
  by_cases hp : fp ∈ st.processed
  · rw [step_skip cfg fp fs st hp]
    exact h
  · cases hd : cfg.diskOk st.nDisk with
    | false =>
      rw [step_diskFail cfg fp fs st hp hd]
      obtain ⟨h1, h2, h3, h4⟩ := h
      refine ⟨h1, h2, h3, good_append _ _ _ h4 ?_⟩
      intro e he
      simp only [List.mem_cons, List.not_mem_nil, or_false] at he
      rcases he with rfl | rfl
      · trivial
      · trivial
    | true =>
      have hnd : InvC1 cfg.maxSize (noteDisk st true) := noteDisk_inv _ st true h
      by_cases hcond : (cfg.maxSize < st.curSize + fs ∧ st.curFiles ≠ []) ∨ cfg.maxSize < fs
      · by_cases hne : st.curFiles ≠ []
        · rw [step_flush cfg fp fs st hp hd hne hcond]
          cases hup : cfg.uploadOk st.nUp with
          | false =>
            have hb := flushPart_fail cfg (noteDisk st true) (by simpa [noteDisk] using hup)
            have hres := flushPart_inv cfg (noteDisk st true) hnd
            rw [hb] at hres ⊢
            exact hres
          | true =>
            have hb := flushPart_ok cfg (noteDisk st true) (by simpa [noteDisk] using hup)
            have hres := flushPart_inv cfg (noteDisk st true) hnd
            rw [hb] at hres
            rw [hb]
            by_cases hfs : cfg.maxSize < fs
            · simp only [if_pos hfs]
              exact processBig_inv cfg fp fs _ hfs hres
            · simp only [if_neg hfs]
              obtain ⟨g1, g2, g3, g4⟩ := hres
              refine ⟨?_, ?_, ?_, ?_⟩
              · simp [appendFile, sizeSum]
              · simp only [appendFile]
                omega
              · simp [appendFile]
              · simpa [appendFile] using g4
        · rw [step_bigEmpty cfg fp fs st hp hd (by simpa using hne) ?hfs]
          case hfs =>
            rcases hcond with ⟨_, hne'⟩ | hfs
            · exact absurd hne' hne
            · exact hfs
          refine processBig_inv cfg fp fs _ ?_ hnd
          rcases hcond with ⟨_, hne'⟩ | hfs
          · exact absurd hne' hne
          · exact hfs
      · rw [step_append cfg fp fs st hp hd hcond]
        obtain ⟨h1, h2, h3, h4⟩ := h
        push_neg at hcond
        obtain ⟨hc1, hc2⟩ := hcond
        refine ⟨?_, ?_, ?_, ?_⟩
        · simp only []
          rw [sizeSum_append_single, h1]
        · simp only []
          by_cases hnil : st.curFiles = []
          · have := h3 hnil
            omega
          · have : ¬ (cfg.maxSize < st.curSize + fs) := fun hlt => hnil (hc1 hlt)
            omega
        · simp
        · refine good_append _ _ _ h4 ?_
          intro e he
          simp only [List.mem_singleton] at he
          subst he
          trivial

theorem procAll_inv (cfg : Cfg) (l : List (String × Nat)) :
    ∀ st : St, InvC1 cfg.maxSize st → invRes cfg.maxSize (procAll cfg l st) := by
  induction l with
  | nil => intro st h; exact h
  | cons hd tl ih =>
    intro st h
    obtain ⟨fp, fs⟩ := hd
    have hs := step_inv cfg fp fs st h
    cases hr : step cfg fp fs st with
    | error st1 =>
      rw [hr] at hs
      simp only [procAll, hr]
      exact hs
    | ok st1 =>
      rw [hr] at hs
      simp only [procAll, hr]
      exact ih st1 hs

theorem finishRun_inv (cfg : Cfg) (st : St) (h : InvC1 cfg.maxSize st) :
    ∀ e ∈ (finishRun cfg st).2.events, goodCompress cfg.maxSize e := by
  obtain ⟨h1, h2, h3, h4⟩ := h
  have hgood : goodCompress cfg.maxSize (Event.compress ⟨ArchKind.part, st.seq⟩ st.curFiles) := by
    simp only [goodCompress]
    omega
  unfold finishRun
  by_cases hne : st.curFiles ≠ []
  · rw [if_pos hne]
    cases hup : cfg.uploadOk st.nUp with
    | false =>
      rw [flushFinal_fail cfg st hup]
      refine good_append _ _ _ h4 ?_
      intro e he
      simp only [List.mem_cons, List.not_mem_nil, or_false] at he
      rcases he with rfl | rfl | rfl
      · exact hgood
      · trivial
      · trivial
    | true =>
      rw [flushFinal_ok cfg st hup]
      have hnew : ∀ e ∈ st.events ++
          [Event.compress ⟨ArchKind.part, st.seq⟩ st.curFiles,
           Event.upload ⟨ArchKind.part, st.seq⟩ true,
           Event.removeArchive ⟨ArchKind.part, st.seq⟩], goodCompress cfg.maxSize e := by
        refine good_append _ _ _ h4 ?_
        intro e he
        simp only [List.mem_cons, List.not_mem_nil, or_false] at he
        rcases he with rfl | rfl | rfl
        · exact hgood
        · trivial
        · trivial
      by_cases hpe : st.progressExists
      · simp only [hpe, if_true, emit]
        refine good_append _ _ _ hnew ?_
        intro e he
        simp only [List.mem_singleton] at he
        subst he
        trivial
      · simp only [hpe, if_false]
        exact hnew
  · rw [if_neg hne]
    by_cases hpe : st.progressExists
    · simp only [hpe, if_true, emit]
      refine good_append _ _ _ h4 ?_
      intro e he
      simp only [List.mem_singleton] at he
      subst he
      trivial
    · simp only [hpe, if_false]
      exact h4

/-- C1: for every inventory, every ceiling and every oracle behaviour,
the run never creates a normal archive whose total size exceeds the
ceiling, every oversized-singleton archive holds exactly one file whose
size exceeds the ceiling, and when `current_size + file_size` equals the
ceiling exactly the file joins the current accumulator with no flush
(inclusive boundary). -/
theorem batches_respect_ceiling (cfg : Cfg) (inventory : List (String × Nat)) (seq0 : Nat)
    (processed0 : Finset String) (hasLedgerFile : Bool) :
    (∀ e ∈ (runBatches cfg inventory seq0 processed0 hasLedgerFile).2.events,
        goodCompress cfg.maxSize e)
    ∧ (∀ (st : St) (fp : String) (fs : Nat), fp ∉ st.processed →
        cfg.diskOk st.nDisk = true → st.curSize + fs = cfg.maxSize →
        step cfg fp fs st = Except.ok
          { st with nDisk := st.nDisk + 1,
                    events := st.events ++ [Event.diskCheck true],
                    curFiles := st.curFiles ++ [(fp, fs)],
                    curSize := st.curSize + fs }) := by
  constructor
  · have hinit : InvC1 cfg.maxSize (initSt seq0 processed0 hasLedgerFile) := by
      refine ⟨rfl, Nat.zero_le _, fun _ => rfl, ?_⟩
      intro e he
      simp [initSt] at he
    have hall := procAll_inv cfg inventory _ hinit
    unfold runBatches
    cases hr : procAll cfg inventory (initSt seq0 processed0 hasLedgerFile) with
    | error st1 =>
      rw [hr] at hall
      exact hall.2.2.2
    | ok st1 =>
      rw [hr] at hall
      exact finishRun_inv cfg st1 hall
  · intro st fp fs hp hd heq
    refine step_append cfg fp fs st hp hd ?_
    rintro (⟨hlt, _⟩ | hlt) <;> omega

/-! ## Failure propagation and ledger-save call sites -/

theorem procAll_error_run (cfg : Cfg) (inventory : List (String × Nat)) (s0 : Nat)
    (P0 : Finset String) (b0 : Bool) (stF : St)
    (h : procAll cfg inventory (initSt s0 P0 b0) = Except.error stF) :
    runBatches cfg inventory s0 P0 b0 = (false, stF) := by
  unfold runBatches
  rw [h]

theorem finishRun_error (cfg : Cfg) (st stF : St) (hne : st.curFiles ≠ [])
    (h : flushFinal cfg st = Except.error stF) :
    finishRun cfg st = (false, stF) := by
  unfold finishRun
  rw [if_pos hne, h]

/-- C3: whenever the upload of a batch fails — an in-loop normal batch,
an oversized singleton, or the final batch — the call returns the
failure value, the archive is never removed, and the ledger written on
the failure path carries exactly the sequence number and processed set
from before that batch started; the failure propagates so the whole run
returns `False`. -/
theorem upload_failure_halts_run (cfg : Cfg) (st : St) (h : cfg.uploadOk st.nUp = false) :
    uploadFailureSpec st (flushPart cfg st)
    ∧ (∀ fp fs, uploadFailureSpec st (processBig cfg fp fs st))
    ∧ uploadFailureSpec st (flushFinal cfg st)
    ∧ (∀ inventory s0 P0 b0 stF, procAll cfg inventory (initSt s0 P0 b0) = Except.error stF →
        runBatches cfg inventory s0 P0 b0 = (false, stF))
    ∧ (∀ stF, st.curFiles ≠ [] → flushFinal cfg st = Except.error stF →
        finishRun cfg st = (false, stF)) := by
  refine ⟨?_, ?_, ?_, procAll_error_run cfg, fun stF hne he => finishRun_error cfg st stF hne he⟩
  · refine ⟨_, flushPart_fail cfg st h, rfl, rfl, _, rfl, ?_, rfl⟩
    intro a
    simp
  · intro fp fs
    refine ⟨_, processBig_fail cfg fp fs st h, rfl, rfl, _, rfl, ?_, rfl⟩
    intro a
    simp
  · refine ⟨_, flushFinal_fail cfg st h, rfl, rfl, _, rfl, ?_, rfl⟩
    intro a
    simp

/-- C3 witness: a concrete failing upload of a pending one-file batch. -/
theorem upload_failure_halts_run_witness :
    uploadFailureSpec (St.mk 1 ∅ [("a", 5)] 5 0 0 [] false)
      (flushPart (cfgNoUpload 10) (St.mk 1 ∅ [("a", 5)] 5 0 0 [] false)) :=
  (upload_failure_halts_run (cfgNoUpload 10) (St.mk 1 ∅ [("a", 5)] 5 0 0 [] false) rfl).1

/-- C4 counterexample: a run whose single batch is the final batch; the
upload succeeds, yet the trace contains no `save_progress` call at all,
so the ledger save is not invoked after every successful batch upload. -/
theorem final_batch_upload_without_save :
    Event.upload ⟨ArchKind.part, 1⟩ true ∈
        (runBatches (cfgAllOk 10) [("a", 5)] 1 ∅ false).2.events
    ∧ (runBatches (cfgAllOk 10) [("a", 5)] 1 ∅ false).2.events.filter isSaveEvent = [] := by
  decide

/-- C4 (amended): `save_progress` is invoked with the updated pair after
every successful in-loop batch (normal and oversized singleton) and with
the unchanged pair on the disk-space and upload-failure exits, but after
the final batch's successful upload no save occurs — the completed run
removes the progress file instead. -/
theorem ledger_save_call_sites (cfg : Cfg) (st : St) (fp : String) (fs : Nat) :
    (cfg.uploadOk st.nUp = true → ∃ stS,
        flushPart cfg st = Except.ok stS
        ∧ stS.events = st.events ++
            [Event.compress ⟨ArchKind.part, st.seq⟩ st.curFiles,
             Event.upload ⟨ArchKind.part, st.seq⟩ true,
             Event.removeArchive ⟨ArchKind.part, st.seq⟩,
             Event.save (st.seq + 1) (st.processed ∪ (st.curFiles.map Prod.fst).toFinset)])
    ∧ (cfg.uploadOk st.nUp = true → ∃ stS,
        processBig cfg fp fs st = Except.ok stS
        ∧ stS.events = st.events ++
            [Event.compress ⟨ArchKind.bigfile, st.seq⟩ [(fp, fs)],
             Event.upload ⟨ArchKind.bigfile, st.seq⟩ true,
             Event.removeArchive ⟨ArchKind.bigfile, st.seq⟩,
             Event.save (st.seq + 1) (insert fp st.processed)])
    ∧ (cfg.uploadOk st.nUp = false → ∃ stF,
        flushPart cfg st = Except.error stF
        ∧ stF.events.getLast? = some (Event.save st.seq st.processed))
    ∧ (cfg.uploadOk st.nUp = false → ∃ stF,
        processBig cfg fp fs st = Except.error stF
        ∧ stF.events.getLast? = some (Event.save st.seq st.processed))
    ∧ (cfg.uploadOk st.nUp = false → ∃ stF,
        flushFinal cfg st = Except.error stF
        ∧ stF.events.getLast? = some (Event.save st.seq st.processed))
    ∧ (fp ∉ st.processed → cfg.diskOk st.nDisk = false → ∃ stF,
        step cfg fp fs st = Except.error stF
        ∧ stF.events.getLast? = some (Event.save st.seq st.processed))
    ∧ (cfg.uploadOk st.nUp = true → ∃ stS,
        flushFinal cfg st = Except.ok stS
        ∧ stS.events = st.events ++
            [Event.compress ⟨ArchKind.part, st.seq⟩ st.curFiles,
             Event.upload ⟨ArchKind.part, st.seq⟩ true,
             Event.removeArchive ⟨ArchKind.part, st.seq⟩]
        ∧ stS.events.filter isSaveEvent = st.events.filter isSaveEvent)
    ∧ (st.curFiles = [] → st.progressExists = true →
        finishRun cfg st =
          (true, emit { st with progressExists := false } Event.removeProgress)) := by
  refine ⟨?_, ?_, ?_, ?_, ?_, ?_, ?_, ?_⟩
  · intro h
    exact ⟨_, flushPart_ok cfg st h, rfl⟩
  · intro h
    exact ⟨_, processBig_ok cfg fp fs st h, rfl⟩
  · intro h
    exact ⟨_, flushPart_fail cfg st h, by simp⟩
  · intro h
    exact ⟨_, processBig_fail cfg fp fs st h, by simp⟩
  · intro h
    exact ⟨_, flushFinal_fail cfg st h, by simp⟩
  · intro h1 h2
    exact ⟨_, step_diskFail cfg fp fs st h1 h2, by simp⟩
  · intro h
    refine ⟨_, flushFinal_ok cfg st h, rfl, ?_⟩
    simp [List.filter_append, isSaveEvent]
  · intro h1 h2
    unfold finishRun
    rw [if_neg (by simp [h1])]
    simp only [h2, if_true]

/-- C4 (amended) witness: a successful in-loop flush at a concrete state
records the save with the advanced sequence number. -/
theorem ledger_save_call_sites_witness :
    ∃ stS, flushPart (cfgAllOk 10) (St.mk 1 ∅ [("a", 5)] 5 0 0 [] false) = Except.ok stS
      ∧ stS.events = ([] : List Event) ++
          [Event.compress ⟨ArchKind.part, 1⟩ [("a", 5)],
           Event.upload ⟨ArchKind.part, 1⟩ true,
           Event.removeArchive ⟨ArchKind.part, 1⟩,
           Event.save 2 ((∅ : Finset String) ∪ ([("a", 5)].map Prod.fst).toFinset)] :=
  (ledger_save_call_sites (cfgAllOk 10) (St.mk 1 ∅ [("a", 5)] 5 0 0 [] false) "b" 3).1 rfl

/-! ## Fully processed inventory -/

theorem procAll_all_skipped (cfg : Cfg) (l : List (String × Nat)) :
    ∀ st : St, (∀ f ∈ l, f.1 ∈ st.processed) → procAll cfg l st = Except.ok st := by
  induction l with
  | nil => intro st _; rfl
  | cons hd tl ih =>
    intro st h
    obtain ⟨fp, fs⟩ := hd
    have hp : fp ∈ st.processed := h (fp, fs) (List.mem_cons_self _ _)
    simp only [procAll, step_skip cfg fp fs st hp]
    exact ih st (fun f hf => h f (List.mem_cons_of_mem _ hf))

/-- C10: when every inventory file is already in the loaded processed
set, the run checks no disk space, compresses nothing, uploads nothing,
removes the progress file exactly when it was present, and returns
`True` with the ledger state untouched. -/
theorem fully_processed_inventory_noop (cfg : Cfg) (inventory : List (String × Nat))
    (seq0 : Nat) (processed0 : Finset String) (hasLedgerFile : Bool)
    (h : ∀ f ∈ inventory, f.1 ∈ processed0) :
    runBatches cfg inventory seq0 processed0 hasLedgerFile =
      (true, { seq := seq0, processed := processed0, curFiles := [], curSize := 0,
               nDisk := 0, nUp := 0,
               events := if hasLedgerFile then [Event.removeProgress] else [],
               progressExists := false }) := by
  unfold runBatches
  rw [procAll_all_skipped cfg inventory (initSt seq0 processed0 hasLedgerFile) h]
  unfold finishRun initSt
  cases hasLedgerFile <;> simp [emit]

/-- C10 witness: a concrete fully-processed inventory with a present
progress file. -/
theorem fully_processed_inventory_noop_witness :
    runBatches (cfgNoUpload 10) [("a", 1)] 4 {"a"} true =
      (true, { seq := 4, processed := {"a"}, curFiles := [], curSize := 0,
               nDisk := 0, nUp := 0,
               events := if true then [Event.removeProgress] else [],
               progressExists := false }) :=
  fully_processed_inventory_noop (cfgNoUpload 10) [("a", 1)] 4 {"a"} true (by decide)


/-! ## Composite step traces -/

theorem step_flushAppend_ok (cfg : Cfg) (fp : String) (fs : Nat) (st : St)
    (h1 : fp ∉ st.processed) (h2 : cfg.diskOk st.nDisk = true)
    (hne : st.curFiles ≠ []) (hM : cfg.maxSize < st.curSize + fs)
    (hfs : ¬ cfg.maxSize < fs) (hu1 : cfg.uploadOk st.nUp = true) :
    step cfg fp fs st = Except.ok
      { seq := st.seq + 1,
        processed := st.processed ∪ (st.curFiles.map Prod.fst).toFinset,
        curFiles := [(fp, fs)], curSize := fs,
        nDisk := st.nDisk + 1, nUp := st.nUp + 1,
        events := st.events ++
          [Event.diskCheck true,
           Event.compress ⟨ArchKind.part, st.seq⟩ st.curFiles,
           Event.upload ⟨ArchKind.part, st.seq⟩ true,
           Event.removeArchive ⟨ArchKind.part, st.seq⟩,
           Event.save (st.seq + 1) (st.processed ∪ (st.curFiles.map Prod.fst).toFinset)],
        progressExists := true } := by
  rw [step_flush cfg fp fs st h1 h2 hne (Or.inl ⟨hM, hne⟩),
    flushPart_ok cfg (noteDisk st true) (by simpa [noteDisk] using hu1)]
  simp only [if_neg hfs]
  simp [noteDisk, appendFile]

theorem step_flushBig_ok (cfg : Cfg) (fp : String) (fs : Nat) (st : St)
    (h1 : fp ∉ st.processed) (h2 : cfg.diskOk st.nDisk = true)
    (hne : st.curFiles ≠ []) (hfs : cfg.maxSize < fs)
    (hu1 : cfg.uploadOk st.nUp = true) (hu2 : cfg.uploadOk (st.nUp + 1) = true) :
    step cfg fp fs st = Except.ok
      { seq := st.seq + 1 + 1,
        processed := insert fp (st.processed ∪ (st.curFiles.map Prod.fst).toFinset),
        curFiles := [], curSize := 0,
        nDisk := st.nDisk + 1, nUp := st.nUp + 1 + 1,
        events := st.events ++
          [Event.diskCheck true,
           Event.compress ⟨ArchKind.part, st.seq⟩ st.curFiles,
           Event.upload ⟨ArchKind.part, st.seq⟩ true,
           Event.removeArchive ⟨ArchKind.part, st.seq⟩,
           Event.save (st.seq + 1) (st.processed ∪ (st.curFiles.map Prod.fst).toFinset),
           Event.compress ⟨ArchKind.bigfile, st.seq + 1⟩ [(fp, fs)],
           Event.upload ⟨ArchKind.bigfile, st.seq + 1⟩ true,
           Event.removeArchive ⟨ArchKind.bigfile, st.seq + 1⟩,
           Event.save (st.seq + 1 + 1)
             (insert fp (st.processed ∪ (st.curFiles.map Prod.fst).toFinset))],
        progressExists := true } := by
  rw [step_flush cfg fp fs st h1 h2 hne (Or.inr hfs),
    flushPart_ok cfg (noteDisk st true) (by simpa [noteDisk] using hu1)]
  simp only [if_pos hfs]
  rw [processBig_ok cfg fp fs _ (by simpa [noteDisk] using hu2)]
  simp [noteDisk]

theorem step_bigDirect_ok (cfg : Cfg) (fp : String) (fs : Nat) (st : St)
    (h1 : fp ∉ st.processed) (h2 : cfg.diskOk st.nDisk = true)
    (he : st.curFiles = []) (hfs : cfg.maxSize < fs)
    (hu1 : cfg.uploadOk st.nUp = true) :
    step cfg fp fs st = Except.ok
      { seq := st.seq + 1,
        processed := insert fp st.processed,
        curFiles := st.curFiles, curSize := st.curSize,
        nDisk := st.nDisk + 1, nUp := st.nUp + 1,
        events := st.events ++
          [Event.diskCheck true,
           Event.compress ⟨ArchKind.bigfile, st.seq⟩ [(fp, fs)],
           Event.upload ⟨ArchKind.bigfile, st.seq⟩ true,
           Event.removeArchive ⟨ArchKind.bigfile, st.seq⟩,
           Event.save (st.seq + 1) (insert fp st.processed)],
        progressExists := true } := by
  rw [step_bigEmpty cfg fp fs st h1 h2 he hfs,
    processBig_ok cfg fp fs _ (by simpa [noteDisk] using hu1)]
  simp [noteDisk]

theorem step_flush_fail (cfg : Cfg) (fp : String) (fs : Nat) (st : St)
    (h1 : fp ∉ st.processed) (h2 : cfg.diskOk st.nDisk = true)
    (hne : st.curFiles ≠ [])
    (hcond : (cfg.maxSize < st.curSize + fs ∧ st.curFiles ≠ []) ∨ cfg.maxSize < fs)
    (hu1 : cfg.uploadOk st.nUp = false) :
    step cfg fp fs st = Except.error
      { st with nDisk := st.nDisk + 1, nUp := st.nUp + 1,
                events := st.events ++
                  [Event.diskCheck true,
                   Event.compress ⟨ArchKind.part, st.seq⟩ st.curFiles,
                   Event.upload ⟨ArchKind.part, st.seq⟩ false,
                   Event.save st.seq st.processed],
                progressExists := true } := by
  rw [step_flush cfg fp fs st h1 h2 hne hcond,
    flushPart_fail cfg (noteDisk st true) (by simpa [noteDisk] using hu1)]
  simp [noteDisk]

theorem step_bigDirect_fail (cfg : Cfg) (fp : String) (fs : Nat) (st : St)
    (h1 : fp ∉ st.processed) (h2 : cfg.diskOk st.nDisk = true)
    (he : st.curFiles = []) (hfs : cfg.maxSize < fs)
    (hu1 : cfg.uploadOk st.nUp = false) :
    step cfg fp fs st = Except.error
      { st with nDisk := st.nDisk + 1, nUp := st.nUp + 1,
                events := st.events ++
                  [Event.diskCheck true,
                   Event.compress ⟨ArchKind.bigfile, st.seq⟩ [(fp, fs)],
                   Event.upload ⟨ArchKind.bigfile, st.seq⟩ false,
                   Event.save st.seq st.processed],
                progressExists := true } := by
  rw [step_bigEmpty cfg fp fs st h1 h2 he hfs,
    processBig_fail cfg fp fs _ (by simpa [noteDisk] using hu1)]
  simp [noteDisk]

/-! ## Partition of the filtered inventory under an all-success run -/

theorem batchFiles_append (l1 l2 : List Event) :
    batchFiles (l1 ++ l2) = batchFiles l1 ++ batchFiles l2 := by
  simp [batchFiles]

theorem step_allOk_unproc (M : Nat) (fp : String) (fs : Nat) (st : St)
    (hpn : fp ∉ st.processed) :
    ∃ st1 pre, step (cfgAllOk M) fp fs st = Except.ok st1
      ∧ st1.events = st.events ++ pre
      ∧ batchFiles pre ++ st1.curFiles = st.curFiles ++ [(fp, fs)]
      ∧ (∀ a fl, Event.compress a fl ∈ pre → Event.upload a true ∈ pre)
      ∧ (∀ x, x ∈ st1.curFiles.map Prod.fst → x ∈ st.curFiles.map Prod.fst ∨ x = fp)
      ∧ (∀ x, x ≠ fp → x ∉ st.curFiles.map Prod.fst →
          (x ∈ st1.processed ↔ x ∈ st.processed)) := by
  by_cases hcond : (M < st.curSize + fs ∧ st.curFiles ≠ []) ∨ M < fs
  · by_cases hne : st.curFiles ≠ []
    · by_cases hfs : M < fs
      · refine ⟨_, _, step_flushBig_ok (cfgAllOk M) fp fs st hpn rfl hne hfs rfl rfl,
          rfl, ?_, ?_, ?_, ?_⟩
        · simp [batchFiles]
        · intro a fl h
          simp only [List.mem_cons, List.not_mem_nil, or_false] at h
          rcases h with h | h | h | h | h | h | h | h | h <;>
            first
              | (obtain ⟨rfl, rfl⟩ := Event.compress.inj h; simp)
              | (cases h)
        · intro x hx
          simp at hx
        · intro x hxf hxc
          simp only [Finset.mem_insert, Finset.mem_union, List.mem_toFinset]
          constructor
          · rintro (he | he | he)
            · exact absurd he hxf
            · exact he
            · exact absurd he hxc
          · intro hp
            exact Or.inr (Or.inl hp)
      · have hM : M < st.curSize + fs := by
          rcases hcond with ⟨hl, _⟩ | hl
          · exact hl
          · exact absurd hl hfs
        refine ⟨_, _, step_flushAppend_ok (cfgAllOk M) fp fs st hpn rfl hne hM hfs rfl,
          rfl, ?_, ?_, ?_, ?_⟩
        · simp [batchFiles]
        · intro a fl h
          simp only [List.mem_cons, List.not_mem_nil, or_false] at h
          rcases h with h | h | h | h | h <;>
            first
              | (obtain ⟨rfl, rfl⟩ := Event.compress.inj h; simp)
              | (cases h)
        · intro x hx
          simp only [List.map_cons, List.map_nil, List.mem_singleton] at hx
          exact Or.inr hx
        · intro x hxf hxc
          simp only [Finset.mem_union, List.mem_toFinset]
          constructor
          · rintro (he | he)
            · exact he
            · exact absurd he hxc
          · exact Or.inl
    · have he : st.curFiles = [] := not_ne_iff.1 hne
      have hfs : M < fs := by
        rcases hcond with ⟨_, hl⟩ | hl
        · exact absurd hl hne
        · exact hl
      refine ⟨_, _, step_bigDirect_ok (cfgAllOk M) fp fs st hpn rfl he hfs rfl,
        rfl, ?_, ?_, ?_, ?_⟩
      · simp [batchFiles, he]
      · intro a fl h
        simp only [List.mem_cons, List.not_mem_nil, or_false] at h
        rcases h with h | h | h | h | h <;>
          first
            | (obtain ⟨rfl, rfl⟩ := Event.compress.inj h; simp)
            | (cases h)
      · intro x hx
        exact Or.inl hx
      · intro x hxf _
        simp [Finset.mem_insert, hxf]
  · refine ⟨_, [Event.diskCheck true], step_append (cfgAllOk M) fp fs st hpn rfl hcond,
      rfl, ?_, ?_, ?_, ?_⟩
    · simp [batchFiles]
    · intro a fl h
      simp at h
    · intro x hx
      simp only [List.map_append, List.map_cons, List.map_nil, List.mem_append,
        List.mem_singleton] at hx
      exact hx
    · intro x _ _
      exact Iff.rfl

theorem procAll_allOk (M : Nat) (l : List (String × Nat)) :
    ∀ (st : St) (P0 : Finset String),
      (l.map Prod.fst).Nodup →
      (∀ f ∈ l, f.1 ∉ st.curFiles.map Prod.fst) →
      (∀ f ∈ l, (f.1 ∈ st.processed ↔ f.1 ∈ P0)) →
      ∃ st' new, procAll (cfgAllOk M) l st = Except.ok st'
        ∧ st'.events = st.events ++ new
        ∧ batchFiles new ++ st'.curFiles = st.curFiles ++ l.filter (fun f => decide (f.1 ∉ P0))
        ∧ (∀ a fl, Event.compress a fl ∈ new → Event.upload a true ∈ new) := by
  induction l with
  | nil =>
    intro st P0 _ _ _
    exact ⟨st, [], rfl, by simp, by simp [batchFiles], by simp⟩
  | cons hd tl ih =>
    obtain ⟨fp, fs⟩ := hd
    intro st P0 hnd hcur hproc
    simp only [List.map_cons, List.nodup_cons] at hnd
    obtain ⟨hnd1, hnd2⟩ := hnd
    have hne_tl : ∀ f ∈ tl, f.1 ≠ fp :=
      fun f hf he => hnd1 (he ▸ List.mem_map_of_mem Prod.fst hf)
    by_cases hP : fp ∈ P0
    · have hmem : fp ∈ st.processed := (hproc (fp, fs) (List.mem_cons_self _ _)).2 hP
      obtain ⟨st', new, hrun, hev, heq, hcu⟩ :=
        ih st P0 hnd2 (fun f hf => hcur f (List.mem_cons_of_mem _ hf))
          (fun f hf => hproc f (List.mem_cons_of_mem _ hf))
      refine ⟨st', new, ?_, hev, ?_, hcu⟩
      · simp only [procAll, step_skip _ fp fs st hmem]
        exact hrun
      · rw [heq]
        congr 1
        rw [List.filter_cons]
        simp [hP]
    · have hpn : fp ∉ st.processed :=
        fun hmem => hP ((hproc (fp, fs) (List.mem_cons_self _ _)).1 hmem)
      have hfilter : ((fp, fs) :: tl).filter (fun f => decide (f.1 ∉ P0)) =
          (fp, fs) :: tl.filter (fun f => decide (f.1 ∉ P0)) := by
        rw [List.filter_cons]
        simp [hP]
      obtain ⟨st1, pre, hstep, hev1, hbf1, hcu1, hcf1, hpr1⟩ :=
        step_allOk_unproc M fp fs st hpn
      have hcur1 : ∀ f ∈ tl, f.1 ∉ st1.curFiles.map Prod.fst := by
        intro f hf hmem
        rcases hcf1 f.1 hmem with h | h
        · exact hcur f (List.mem_cons_of_mem _ hf) h
        · exact hne_tl f hf h
      have hproc1 : ∀ f ∈ tl, (f.1 ∈ st1.processed ↔ f.1 ∈ P0) := by
        intro f hf
        rw [hpr1 f.1 (hne_tl f hf) (hcur f (List.mem_cons_of_mem _ hf))]
        exact hproc f (List.mem_cons_of_mem _ hf)
      obtain ⟨st', new, hrun, hev, heq, hcu⟩ := ih st1 P0 hnd2 hcur1 hproc1
      refine ⟨st', pre ++ new, ?_, ?_, ?_, ?_⟩
      · simp only [procAll, hstep]
        exact hrun
      · rw [hev, hev1, List.append_assoc]
      · rw [batchFiles_append, List.append_assoc, heq, hfilter, ← List.append_assoc, hbf1]
        simp
      · intro a fl h
        rcases List.mem_append.1 h with h | h
        · exact List.mem_append_left _ (hcu1 a fl h)
        · exact List.mem_append_right _ (hcu a fl h)

theorem finishRun_allOk (M : Nat) (st : St) :
    ∃ st' new, finishRun (cfgAllOk M) st = (true, st')
      ∧ st'.events = st.events ++ new
      ∧ batchFiles new = st.curFiles
      ∧ (∀ a fl, Event.compress a fl ∈ new → Event.upload a true ∈ new) := by
  by_cases hne : st.curFiles ≠ []
  · by_cases hpe : st.progressExists
    · have hfin : finishRun (cfgAllOk M) st = (true,
          { seq := st.seq,
            processed := st.processed ∪ (st.curFiles.map Prod.fst).toFinset,
            curFiles := st.curFiles, curSize := st.curSize,
            nDisk := st.nDisk, nUp := st.nUp + 1,
            events := st.events ++
              [Event.compress ⟨ArchKind.part, st.seq⟩ st.curFiles,
               Event.upload ⟨ArchKind.part, st.seq⟩ true,
               Event.removeArchive ⟨ArchKind.part, st.seq⟩,
               Event.removeProgress],
            progressExists := false }) := by
        unfold finishRun
        rw [if_pos hne, flushFinal_ok (cfgAllOk M) st rfl]
        simp [hpe, emit]
      refine ⟨_, _, hfin, rfl, ?_, ?_⟩
      · simp [batchFiles]
      · intro a fl h
        simp only [List.mem_cons, List.not_mem_nil, or_false] at h
        rcases h with h | h | h | h <;>
          first
            | (obtain ⟨rfl, rfl⟩ := Event.compress.inj h; simp)
            | (cases h)
    · have hfin : finishRun (cfgAllOk M) st = (true,
          { seq := st.seq,
            processed := st.processed ∪ (st.curFiles.map Prod.fst).toFinset,
            curFiles := st.curFiles, curSize := st.curSize,
            nDisk := st.nDisk, nUp := st.nUp + 1,
            events := st.events ++
              [Event.compress ⟨ArchKind.part, st.seq⟩ st.curFiles,
               Event.upload ⟨ArchKind.part, st.seq⟩ true,
               Event.removeArchive ⟨ArchKind.part, st.seq⟩],
            progressExists := st.progressExists }) := by
        unfold finishRun
        rw [if_pos hne, flushFinal_ok (cfgAllOk M) st rfl]
        simp [hpe, emit]
      refine ⟨_, _, hfin, rfl, ?_, ?_⟩
      · simp [batchFiles]
      · intro a fl h
        simp only [List.mem_cons, List.not_mem_nil, or_false] at h
        rcases h with h | h | h <;>
          first
            | (obtain ⟨rfl, rfl⟩ := Event.compress.inj h; simp)
            | (cases h)
  · have he : st.curFiles = [] := not_ne_iff.1 hne
    by_cases hpe : st.progressExists
    · have hfin : finishRun (cfgAllOk M) st = (true,
          { st with events := st.events ++ [Event.removeProgress],
                    progressExists := false }) := by
        unfold finishRun
        rw [if_neg hne]
        simp [hpe, emit]
      refine ⟨_, _, hfin, rfl, by simp [batchFiles, he], ?_⟩
      intro a fl h
      simp at h
    · have hfin : finishRun (cfgAllOk M) st = (true, st) := by
        unfold finishRun
        rw [if_neg hne]
        simp [hpe]
      exact ⟨st, [], hfin, by simp, by simp [batchFiles, he], by intro a fl h; simp at h⟩

theorem runBatches_allOk (M : Nat) (inventory : List (String × Nat)) (seq0 : Nat)
    (P0 : Finset String) (b0 : Bool) (hnd : (inventory.map Prod.fst).Nodup) :
    (runBatches (cfgAllOk M) inventory seq0 P0 b0).1 = true
    ∧ batchFiles (runBatches (cfgAllOk M) inventory seq0 P0 b0).2.events =
        inventory.filter (fun f => decide (f.1 ∉ P0))
    ∧ (∀ a fl, Event.compress a fl ∈ (runBatches (cfgAllOk M) inventory seq0 P0 b0).2.events →
        Event.upload a true ∈ (runBatches (cfgAllOk M) inventory seq0 P0 b0).2.events) := by
  obtain ⟨stm, new, hrun, hev, heq, hcu⟩ :=
    procAll_allOk M inventory (initSt seq0 P0 b0) P0 hnd (by simp [initSt]) (by simp [initSt])
  obtain ⟨st2, new2, hfin, hev2, hbf2, hcu2⟩ := finishRun_allOk M stm
  have hres : runBatches (cfgAllOk M) inventory seq0 P0 b0 = (true, st2) := by
    unfold runBatches
    rw [hrun]
    exact hfin
  rw [hres]
  have hevAll : st2.events = new ++ new2 := by
    rw [hev2, hev]
    simp [initSt]
  refine ⟨rfl, ?_, ?_⟩
  · rw [hevAll, batchFiles_append, hbf2]
    have heq2 : batchFiles new ++ stm.curFiles =
        inventory.filter (fun f => decide (f.1 ∉ P0)) := by
      rw [heq]
      simp [initSt]
    exact heq2
  · intro a fl h
    rw [hevAll] at h ⊢
    rcases List.mem_append.1 h with h | h
    · exact List.mem_append_left _ (hcu a fl h)
    · exact List.mem_append_right _ (hcu2 a fl h)

/-- C1 witness: the normal batch of a concrete run respects the ceiling,
and an exact-fit file (6 + 4 = 10) joins the accumulator with no flush. -/
theorem batches_respect_ceiling_witness :
    goodCompress 10 (Event.compress ⟨ArchKind.part, 1⟩ [("a", 5)])
    ∧ step (cfgAllOk 10) "b" 4 (St.mk 1 ∅ [("a", 6)] 6 0 0 [] false) = Except.ok
        { St.mk 1 ∅ [("a", 6)] 6 0 0 [] false with
          nDisk := 0 + 1,
          events := ([] : List Event) ++ [Event.diskCheck true],
          curFiles := [("a", 6)] ++ [("b", 4)],
          curSize := 6 + 4 } :=
  ⟨(batches_respect_ceiling (cfgAllOk 10) [("a", 5)] 1 ∅ false).1
      (Event.compress ⟨ArchKind.part, 1⟩ [("a", 5)]) (by decide),
   (batches_respect_ceiling (cfgAllOk 10) [] 1 ∅ false).2
      (St.mk 1 ∅ [("a", 6)] 6 0 0 [] false) "b" 4 (by decide) rfl (by decide)⟩

/-- C2: on an inventory with distinct paths, when every disk check and
upload succeeds, the files grouped into archives across the whole run
are exactly the inventory files whose paths are not already processed,
each exactly once and in inventory order — no omission, no
duplication. -/
theorem batches_partition_filtered_inventory (M : Nat) (inventory : List (String × Nat))
    (seq0 : Nat) (P0 : Finset String) (b0 : Bool)
    (hnd : (inventory.map Prod.fst).Nodup) :
    batchFiles (runBatches (cfgAllOk M) inventory seq0 P0 b0).2.events =
      inventory.filter (fun f => decide (f.1 ∉ P0)) :=
  (runBatches_allOk M inventory seq0 P0 b0 hnd).2.1

/-- C2 witness: a concrete two-file inventory with one path already
processed. -/
theorem batches_partition_filtered_inventory_witness :
    batchFiles (runBatches (cfgAllOk 4) [("a", 2), ("b", 3)] 1 {"b"} false).2.events =
      [("a", 2), ("b", 3)].filter (fun f => decide (f.1 ∉ ({"b"} : Finset String))) :=
  batches_partition_filtered_inventory 4 [("a", 2), ("b", 3)] 1 {"b"} false (by decide)

/-- C9: with `resume=False` the loaded state is `(1, empty set)` whatever
the progress file holds, so a valid ledger on disk is ignored, and a run
from an empty processed set (all oracles succeeding, distinct paths)
batches every inventory file and uploads every archive it creates. -/
theorem resume_false_ignores_ledger :
    (∀ pf : ProgressFile, loadedState pf false = (Json.num 1, (∅ : Finset JAtom)))
    ∧ (∀ (M : Nat) (inventory : List (String × Nat)) (seq0 : Nat) (b0 : Bool),
        (inventory.map Prod.fst).Nodup →
        (runBatches (cfgAllOk M) inventory seq0 ∅ b0).1 = true
        ∧ batchFiles (runBatches (cfgAllOk M) inventory seq0 ∅ b0).2.events = inventory
        ∧ (∀ a fl,
            Event.compress a fl ∈ (runBatches (cfgAllOk M) inventory seq0 ∅ b0).2.events →
            Event.upload a true ∈ (runBatches (cfgAllOk M) inventory seq0 ∅ b0).2.events)) := by
  constructor
  · intro pf
    rfl
  · intro M inventory seq0 b0 hnd
    obtain ⟨h1, h2, h3⟩ := runBatches_allOk M inventory seq0 ∅ b0 hnd
    refine ⟨h1, ?_, h3⟩
    rw [h2]
    apply List.filter_eq_self.2
    intro f _
    simp

/-- C9 witness: a parsed valid ledger is ignored under `resume=False`,
and a concrete fresh run batches its whole inventory. -/
theorem resume_false_ignores_ledger_witness :
    loadedState (ProgressFile.parsed (save_progress_json 7 ["x"])) false =
      (Json.num 1, (∅ : Finset JAtom))
    ∧ batchFiles (runBatches (cfgAllOk 10) [("a", 5)] 1 ∅ false).2.events = [("a", 5)] :=
  ⟨resume_false_ignores_ledger.1 (ProgressFile.parsed (save_progress_json 7 ["x"])),
   (resume_false_ignores_ledger.2 10 [("a", 5)] 1 false (by decide)).2.1⟩

/-! ## Halt behaviour under failing oracles -/

theorem procAll_allOk_noerr (M : Nat) (l : List (String × Nat)) :
    ∀ st : St, ∃ st', procAll (cfgAllOk M) l st = Except.ok st' := by
  induction l with
  | nil => intro st; exact ⟨st, rfl⟩
  | cons hd tl ih =>
    obtain ⟨fp, fs⟩ := hd
    intro st
    by_cases hp : fp ∈ st.processed
    · obtain ⟨st', h⟩ := ih st
      refine ⟨st', ?_⟩
      simp only [procAll, step_skip _ fp fs st hp]
      exact h
    · obtain ⟨st1, pre, hstep, _⟩ := step_allOk_unproc M fp fs st hp
      obtain ⟨st', h⟩ := ih st1
      refine ⟨st', ?_⟩
      simp only [procAll, hstep]
      exact h

theorem runBatches_allOk_true (M : Nat) (inventory : List (String × Nat)) (s0 : Nat)
    (P0 : Finset String) (b0 : Bool) :
    (runBatches (cfgAllOk M) inventory s0 P0 b0).1 = true := by
  obtain ⟨stm, hm⟩ := procAll_allOk_noerr M inventory (initSt s0 P0 b0)
  obtain ⟨st2, new2, hfin, _⟩ := finishRun_allOk M stm
  have hrb : runBatches (cfgAllOk M) inventory s0 P0 b0 = (true, st2) := by
    unfold runBatches
    rw [hm]
    exact hfin
  rw [hrb]

theorem procAll_cons_error (cfg : Cfg) (fp : String) (fs : Nat) (tl : List (String × Nat))
    (st stF : St) (h : step cfg fp fs st = Except.error stF) :
    procAll cfg ((fp, fs) :: tl) st = Except.error stF := by
  simp only [procAll, h]

theorem procAll_cons_ok (cfg : Cfg) (fp : String) (fs : Nat) (tl : List (String × Nat))
    (st st1 : St) (h : step cfg fp fs st = Except.ok st1) :
    procAll cfg ((fp, fs) :: tl) st = procAll cfg tl st1 := by
  simp only [procAll, h]

theorem procAll_diskFalse (cfg : Cfg) (hdk : ∀ n, cfg.diskOk n = false)
    (l : List (String × Nat)) :
    ∀ st : St, (∃ f ∈ l, f.1 ∉ st.processed) → ∃ stF, procAll cfg l st = Except.error stF := by
  induction l with
  | nil =>
    intro st h
    obtain ⟨f, hf, _⟩ := h
    exact absurd hf (List.not_mem_nil f)
  | cons hd tl ih =>
    obtain ⟨fp, fs⟩ := hd
    intro st h
    by_cases hp : fp ∈ st.processed
    · have h' : ∃ f ∈ tl, f.1 ∉ st.processed := by
        obtain ⟨f, hf, hfn⟩ := h
        rcases List.mem_cons.1 hf with rfl | hf'
        · exact absurd hp hfn
        · exact ⟨f, hf', hfn⟩
      obtain ⟨stF, hF⟩ := ih st h'
      refine ⟨stF, ?_⟩
      simp only [procAll, step_skip _ fp fs st hp]
      exact hF
    · exact ⟨_, procAll_cons_error cfg fp fs tl st _
        (step_diskFail cfg fp fs st hp (hdk st.nDisk))⟩

theorem procAll_upFalse (cfg : Cfg) (hu : ∀ n, cfg.uploadOk n = false)
    (hdk : ∀ n, cfg.diskOk n = true) (l : List (String × Nat)) :
    ∀ st : St, (st.curFiles ≠ [] ∨ ∃ f ∈ l, f.1 ∉ st.processed) →
      (∃ stF, procAll cfg l st = Except.error stF)
      ∨ (∃ st', procAll cfg l st = Except.ok st' ∧ st'.curFiles ≠ []) := by
  induction l with
  | nil =>
    intro st h
    rcases h with h | ⟨f, hf, _⟩
    · exact Or.inr ⟨st, rfl, h⟩
    · exact absurd hf (List.not_mem_nil f)
  | cons hd tl ih =>
    obtain ⟨fp, fs⟩ := hd
    intro st h
    by_cases hp : fp ∈ st.processed
    · have h' : st.curFiles ≠ [] ∨ ∃ f ∈ tl, f.1 ∉ st.processed := by
        rcases h with h | ⟨f, hf, hfn⟩
        · exact Or.inl h
        · rcases List.mem_cons.1 hf with rfl | hf'
          · exact absurd hp hfn
          · exact Or.inr ⟨f, hf', hfn⟩
      rcases ih st h' with ⟨stF, hF⟩ | ⟨st', h1, h2⟩
      · refine Or.inl ⟨stF, ?_⟩
        simp only [procAll, step_skip _ fp fs st hp]
        exact hF
      · refine Or.inr ⟨st', ?_, h2⟩
        simp only [procAll, step_skip _ fp fs st hp]
        exact h1
    · by_cases hcond : (cfg.maxSize < st.curSize + fs ∧ st.curFiles ≠ []) ∨ cfg.maxSize < fs
      · by_cases hne : st.curFiles ≠ []
        · exact Or.inl ⟨_, procAll_cons_error cfg fp fs tl st _
            (step_flush_fail cfg fp fs st hp (hdk st.nDisk) hne hcond (hu st.nUp))⟩
        · have he : st.curFiles = [] := not_ne_iff.1 hne
          have hfs : cfg.maxSize < fs := by
            rcases hcond with ⟨_, hl⟩ | hl
            · exact absurd hl hne
            · exact hl
          exact Or.inl ⟨_, procAll_cons_error cfg fp fs tl st _
            (step_bigDirect_fail cfg fp fs st hp (hdk st.nDisk) he hfs (hu st.nUp))⟩
      · obtain ⟨st1, hstep, hne1⟩ :
            ∃ st1, step cfg fp fs st = Except.ok st1 ∧ st1.curFiles ≠ [] :=
          ⟨_, step_append cfg fp fs st hp (hdk st.nDisk) hcond, by simp⟩
        have hpc := procAll_cons_ok cfg fp fs tl st st1 hstep
        rcases ih st1 (Or.inl hne1) with ⟨stF, hF⟩ | ⟨st', h1, h2⟩
        · exact Or.inl ⟨stF, hpc.trans hF⟩
        · exact Or.inr ⟨st', hpc.trans h1, h2⟩

theorem runBatches_diskFalse (cfg : Cfg) (hdk : ∀ n, cfg.diskOk n = false)
    (inventory : List (String × Nat)) (s0 : Nat) (P0 : Finset String) (b0 : Bool)
    (h : ∃ f ∈ inventory, f.1 ∉ P0) :
    (runBatches cfg inventory s0 P0 b0).1 = false := by
  obtain ⟨stF, hF⟩ := procAll_diskFalse cfg hdk inventory (initSt s0 P0 b0)
    (by simpa [initSt] using h)
  unfold runBatches
  rw [hF]

theorem runBatches_upFalse (cfg : Cfg) (hu : ∀ n, cfg.uploadOk n = false)
    (hdk : ∀ n, cfg.diskOk n = true) (inventory : List (String × Nat)) (s0 : Nat)
    (P0 : Finset String) (b0 : Bool) (h : ∃ f ∈ inventory, f.1 ∉ P0) :
    (runBatches cfg inventory s0 P0 b0).1 = false := by
  have h0 : (initSt s0 P0 b0).curFiles ≠ []
      ∨ ∃ f ∈ inventory, f.1 ∉ (initSt s0 P0 b0).processed :=
    Or.inr (by simpa [initSt] using h)
  rcases procAll_upFalse cfg hu hdk inventory (initSt s0 P0 b0) h0 with ⟨stF, hF⟩ | ⟨st', h1, h2⟩
  · unfold runBatches
    rw [hF]
  · obtain ⟨stF, hFF⟩ : ∃ stF, flushFinal cfg st' = Except.error stF :=
      ⟨_, flushFinal_fail cfg st' (hu st'.nUp)⟩
    have hfin : finishRun cfg st' = (false, stF) := by
      unfold finishRun
      rw [if_pos h2, hFF]
    have hrb : runBatches cfg inventory s0 P0 b0 = finishRun cfg st' := by
      unfold runBatches
      rw [h1]
    rw [hrb, hfin]

/-- C8 counterexample: the script exits with code 0 also when
`compress_upload_and_clean` returned `False` and on a keyboard
interrupt — `__main__` never calls `sys.exit` — contradicting the
required non-zero exit code on pause, failure or interrupt. -/
theorem exit_code_zero_on_failure :
    script_exit_code RunOutcome.haltedFalse = 0
    ∧ script_exit_code RunOutcome.interrupted = 0 :=
  ⟨rfl, rfl⟩

/-- C8 (amended): the process exit code is 0 in every outcome
(completion, halt, interrupt); completion versus halt is signalled only
by the boolean result of `compress_upload_and_clean` — `True` when every
upload succeeds, `False` both when disk space runs short and when an
upload fails, so those two halts are indistinguishable from the
termination status. -/
theorem exit_status_amended :
    (∀ o : RunOutcome, script_exit_code o = 0)
    ∧ (∀ (M : Nat) (inventory : List (String × Nat)) (s0 : Nat) (P0 : Finset String) (b0 : Bool),
        (runBatches (cfgAllOk M) inventory s0 P0 b0).1 = true)
    ∧ (∀ (cfg : Cfg) (inventory : List (String × Nat)) (s0 : Nat) (P0 : Finset String) (b0 : Bool),
        (∀ n, cfg.diskOk n = false) → (∃ f ∈ inventory, f.1 ∉ P0) →
        (runBatches cfg inventory s0 P0 b0).1 = false)
    ∧ (∀ (cfg : Cfg) (inventory : List (String × Nat)) (s0 : Nat) (P0 : Finset String) (b0 : Bool),
        (∀ n, cfg.uploadOk n = false) → (∀ n, cfg.diskOk n = true) →
        (∃ f ∈ inventory, f.1 ∉ P0) →
        (runBatches cfg inventory s0 P0 b0).1 = false) := by
  refine ⟨fun o => by cases o <;> rfl, runBatches_allOk_true, ?_, ?_⟩
  · intro cfg inventory s0 P0 b0 hdk h
    exact runBatches_diskFalse cfg hdk inventory s0 P0 b0 h
  · intro cfg inventory s0 P0 b0 hu hdk h
    exact runBatches_upFalse cfg hu hdk inventory s0 P0 b0 h

/-- C8 (amended) witness: concrete runs returning `False` under a failing
disk check and under a failing upload, and `True` when all succeed. -/
theorem exit_status_amended_witness :
    (runBatches (Cfg.mk 10 (fun _ => false) (fun _ => true)) [("a", 5)] 1 ∅ false).1 = false
    ∧ (runBatches (cfgNoUpload 10) [("a", 5)] 1 ∅ false).1 = false
    ∧ (runBatches (cfgAllOk 10) [("a", 5)] 1 ∅ false).1 = true :=
  ⟨exit_status_amended.2.2.1 (Cfg.mk 10 (fun _ => false) (fun _ => true)) [("a", 5)] 1 ∅ false
      (fun _ => rfl) ⟨("a", 5), by decide, by decide⟩,
   exit_status_amended.2.2.2 (cfgNoUpload 10) [("a", 5)] 1 ∅ false (fun _ => rfl) (fun _ => rfl)
      ⟨("a", 5), by decide, by decide⟩,
   exit_status_amended.2.1 10 [("a", 5)] 1 ∅ false⟩

/-! ## Ledger round-trip and defaulting -/

theorem atomsOf_map_str (l : List String) :
    atomsOf (l.map Json.str) = some (l.map JAtom.str) := by
  induction l with
  | nil => rfl
  | cons hd tl ih => simp [atomsOf, jsonAtom, ih]

/-- C5: for every positive sequence number and list of path strings,
loading the record written by `save_progress` returns exactly the saved
sequence number and the saved paths as a set. -/
theorem save_load_round_trip (s : Int) (paths : List String) (_hs : 0 < s) :
    load_progress (ProgressFile.parsed (save_progress_json s paths)) =
      (Json.num s, (paths.map JAtom.str).toFinset) := by
  have h1 : dictGet [("current_archive", Json.num s),
      ("processed_files", Json.arr (paths.map Json.str))] "current_archive" =
      some (Json.num s) := rfl
  have h2 : dictGet [("current_archive", Json.num s),
      ("processed_files", Json.arr (paths.map Json.str))] "processed_files" =
      some (Json.arr (paths.map Json.str)) := rfl
  simp [load_progress, save_progress_json, tryLoad, h1, h2, pySet, atomsOf_map_str]

/-- C5 witness: a concrete round trip. -/
theorem save_load_round_trip_witness :
    load_progress (ProgressFile.parsed (save_progress_json 3 ["a", "b"])) =
      (Json.num 3, ((["a", "b"] : List String).map JAtom.str).toFinset) :=
  save_load_round_trip 3 ["a", "b"] (by decide)

/-- C6: a missing, unreadable or invalid progress file — parse failure,
a parsed value that is not a dict, missing keys, or a `processed_files`
value that `set(...)` rejects — makes `load_progress` return
`(1, empty set)`; the embedded function is total, so no exception
escapes. -/
theorem load_progress_defaults (pf : ProgressFile)
    (h : match pf with
      | ProgressFile.parsed j => tryLoad j = none
      | _ => True) :
    load_progress pf = (Json.num 1, ∅) := by
  cases pf with
  | missing => rfl
  | unreadable => rfl
  | invalidJson => rfl
  | parsed j =>
    simp only [load_progress, h, Option.getD_none]

/-- C6 witness: a parsed ledger missing the `processed_files` key. -/
theorem load_progress_defaults_witness :
    load_progress (ProgressFile.parsed (Json.obj [("current_archive", Json.num 5)])) =
      (Json.num 1, ∅) :=
  load_progress_defaults (ProgressFile.parsed (Json.obj [("current_archive", Json.num 5)]))
    (by rfl)

/-! ## Non-atomicity of the ledger write -/

/-- C7 counterexample: `save_progress` performs no rename, and
interrupting it right after the in-place truncation leaves the progress
file empty — the previous valid ledger record is destroyed rather than
left intact, so the write is not atomic. -/
theorem save_progress_not_atomic :
    ((save_progress_ops "upload_progress.json" 7 ["a", "b"]).all
        (fun op => !(isRename op)) = true)
    ∧ applyOps ((save_progress_ops "upload_progress.json" 7 ["a", "b"]).take 1)
        (fun q => if q = "upload_progress.json"
          then some (FileContent.json (save_progress_json 5 ["a"])) else none)
        "upload_progress.json" = some FileContent.empty
    ∧ some FileContent.empty ≠ some (FileContent.json (save_progress_json 5 ["a"])) := by
  refine ⟨rfl, ?_, ?_⟩
  · simp [save_progress_ops, applyOps, applyOp]
  · simp

/-- C7 (amended): every `save_progress` call overwrites the progress file
in place: it opens the target itself with truncation and then writes the
record — no temporary file, no rename.  The completed call leaves the
new record, while an interruption between the truncation and the
completed write leaves an empty truncated file instead of the previous
ledger. -/
theorem save_progress_overwrites_in_place (progress_file : String) (current_archive : Int)
    (processed_files : List String) :
    save_progress_ops progress_file current_archive processed_files =
      [FsOp.openTrunc progress_file,
       FsOp.writeJson progress_file (save_progress_json current_archive processed_files)]
    ∧ (∀ fs0, applyOps (save_progress_ops progress_file current_archive processed_files) fs0
        progress_file =
        some (FileContent.json (save_progress_json current_archive processed_files)))
    ∧ (∀ fs0,
        applyOps ((save_progress_ops progress_file current_archive processed_files).take 1)
          fs0 progress_file = some FileContent.empty) := by
  refine ⟨rfl, ?_, ?_⟩
  · intro fs0
    simp [save_progress_ops, applyOps, applyOp]
  · intro fs0
    simp [save_progress_ops, applyOps, applyOp]
